import Mathlib

/-!
# Path transforms of the storage package

A shallow embedding of `storage/pathTranformFunc.go` and of the Go library
functions it calls (`strings.Split`, `strings.Join`, `filepath.Ext`,
`filepath.Base`, `hex.EncodeToString`, `sha1.Sum`, `md5.Sum`).

Conventions.
* A Go `string` is modelled by a Lean `String` (valid UTF-8 text).  The bytes
  `+`, `/` and `.` that the code scans for are ASCII, and an ASCII byte never
  occurs inside a multi-byte UTF-8 sequence, so scanning characters and
  scanning bytes find the same positions.
* `[]byte(s)` is the UTF-8 encoding of `s`, a list of naturals below 256.
* 32-bit words are naturals, reduced `% 2^32` after every addition and shift.
* A Go run-time panic is the `error` side of `Except RuntimePanic`.
* `path/filepath` is the Unix flavour: the only separator is `/` and the
  volume name is always empty.
-/

namespace Storage

/-! ## Run-time panics -/

/-- The run-time panics an index or slice expression can raise. -/
inductive RuntimePanic where
  | indexOutOfRange (index length : Nat)
  | sliceOutOfRange (bound length : Nat)
  deriving DecidableEq, Repr

deriving instance DecidableEq for Except

/-- The Go index expression `xs[i]`: panics when `i` is not below `len(xs)`. -/
def index {α : Type} (xs : List α) (i : Nat) : Except RuntimePanic α :=
  match xs.get? i with
  | some x => .ok x
  | none => .error (.indexOutOfRange i xs.length)

/-- The Go slice expression `s[lo:hi]` on a string: panics unless
`lo ≤ hi ≤ len(s)`. -/
def sliceStr (s : List Char) (lo hi : Nat) : Except RuntimePanic (List Char) :=
  if hi ≤ s.length then
    if lo ≤ hi then .ok ((s.drop lo).take (hi - lo))
    else .error (.sliceOutOfRange lo hi)
  else .error (.sliceOutOfRange hi s.length)

/-! ## `[]byte(s)` -/

/-- The conversion `[]byte(s)`: the UTF-8 bytes of `s`. -/
def toBytes (s : String) : List Nat :=
  s.data.flatMap fun c => (String.utf8EncodeChar c).map UInt8.toNat

/-! ## 32-bit word arithmetic -/

/-- Addition of `uint32` values. -/
def add32 (a b : Nat) : Nat := (a + b) % 2 ^ 32

/-- `bits.RotateLeft32`. -/
def rotl32 (x n : Nat) : Nat := ((x <<< n) % 2 ^ 32) ||| (x >>> (32 - n))

/-- Bitwise complement of a `uint32`. -/
def not32 (x : Nat) : Nat := (2 ^ 32 - 1) ^^^ x

/-- The four bytes of a 32-bit word, most significant first. -/
def be32Bytes (w : Nat) : List Nat :=
  [(w >>> 24) % 256, (w >>> 16) % 256, (w >>> 8) % 256, w % 256]

/-- The four bytes of a 32-bit word, least significant first. -/
def le32Bytes (w : Nat) : List Nat :=
  [w % 256, (w >>> 8) % 256, (w >>> 16) % 256, (w >>> 24) % 256]

/-- The eight bytes of a 64-bit length, most significant first. -/
def be64Bytes (n : Nat) : List Nat :=
  be32Bytes ((n >>> 32) % 2 ^ 32) ++ be32Bytes (n % 2 ^ 32)

/-- The eight bytes of a 64-bit length, least significant first. -/
def le64Bytes (n : Nat) : List Nat :=
  le32Bytes (n % 2 ^ 32) ++ le32Bytes ((n >>> 32) % 2 ^ 32)

/-- Big-endian 32-bit words of a byte string (a short tail is zero-filled). -/
def beWords : Nat → List Nat → List Nat
  | 0, _ => []
  | k + 1, bs =>
    (((bs.getD 0 0 * 256 + bs.getD 1 0) * 256 + bs.getD 2 0) * 256 + bs.getD 3 0)
      :: beWords k (bs.drop 4)

/-- Little-endian 32-bit words of a byte string. -/
def leWords : Nat → List Nat → List Nat
  | 0, _ => []
  | k + 1, bs =>
    (((bs.getD 3 0 * 256 + bs.getD 2 0) * 256 + bs.getD 1 0) * 256 + bs.getD 0 0)
      :: leWords k (bs.drop 4)

/-- Number of zero bytes between the `0x80` marker and the 8-byte length so
that the padded message is a whole number of 64-byte blocks. -/
def padZeros (len : Nat) : Nat := (119 - len % 64) % 64

/-- Cut a padded message into `k` blocks of 64 bytes. -/
def blocks64 : Nat → List Nat → List (List Nat)
  | 0, _ => []
  | k + 1, bs => bs.take 64 :: blocks64 k (bs.drop 64)

/-! ## SHA-1 (`crypto/sha1`) -/

/-- State of the SHA-1 compression: the five chaining words. -/
structure Sha1State where
  a : Nat
  b : Nat
  c : Nat
  d : Nat
  e : Nat
  deriving DecidableEq, Repr

/-- Initial chaining value of SHA-1. -/
def sha1Init : Sha1State :=
  ⟨0x67452301, 0xEFCDAB89, 0x98BADCFE, 0x10325476, 0xC3D2E1F0⟩

/-- Round function and constant of SHA-1 round `t`. -/
def sha1F (t b c d : Nat) : Nat × Nat :=
  if t < 20 then ((b &&& c) ||| (not32 b &&& d), 0x5A827999)
  else if t < 40 then (b ^^^ c ^^^ d, 0x6ED9EBA1)
  else if t < 60 then ((b &&& c) ||| (b &&& d) ||| (c &&& d), 0x8F1BBCDC)
  else (b ^^^ c ^^^ d, 0xCA62C1D6)

/-- Rounds `t, t+1, ..., t+n-1` of SHA-1 over a sliding window `w` of the 16
most recent schedule words (`w[0]` is the word of round `t`). -/
def sha1Rounds : Nat → Nat → List Nat → Sha1State → Sha1State
  | 0, _, _, s => s
  | n + 1, t, w, s =>
    let wt := w.getD 0 0
    let fk := sha1F t s.b s.c s.d
    let tmp := add32 (add32 (add32 (add32 (rotl32 s.a 5) fk.1) s.e) wt) fk.2
    let next := rotl32 (w.getD 13 0 ^^^ w.getD 8 0 ^^^ w.getD 2 0 ^^^ w.getD 0 0) 1
    sha1Rounds n (t + 1) (w.drop 1 ++ [next]) ⟨tmp, s.a, rotl32 s.b 30, s.c, s.d⟩

/-- One SHA-1 block: 80 rounds, then the feed-forward addition. -/
def sha1Block (s : Sha1State) (block : List Nat) : Sha1State :=
  let r := sha1Rounds 80 0 (beWords 16 block) s
  ⟨add32 s.a r.a, add32 s.b r.b, add32 s.c r.c, add32 s.d r.d, add32 s.e r.e⟩

/-- Message padding shared by SHA-1 and MD5, up to the encoding of the
bit length. -/
def padMessage (lenBytes : Nat → List Nat) (msg : List Nat) : List Nat :=
  msg ++ 0x80 :: List.replicate (padZeros msg.length) 0 ++ lenBytes (8 * msg.length)

/-- The function `sha1.Sum`: the 20-byte SHA-1 digest of `msg`. -/
def sha1Sum (msg : List Nat) : List Nat :=
  let padded := padMessage be64Bytes msg
  let s := (blocks64 (padded.length / 64) padded).foldl sha1Block sha1Init
  be32Bytes s.a ++ be32Bytes s.b ++ be32Bytes s.c ++ be32Bytes s.d ++ be32Bytes s.e

/-! ## MD5 (`crypto/md5`) -/

/-- State of the MD5 compression: the four chaining words. -/
structure Md5State where
  a : Nat
  b : Nat
  c : Nat
  d : Nat
  deriving DecidableEq, Repr

/-- Initial chaining value of MD5. -/
def md5Init : Md5State := ⟨0x67452301, 0xEFCDAB89, 0x98BADCFE, 0x10325476⟩

/-- The sine table of MD5: `floor (2^32 * |sin (i + 1)|)`. -/
def md5K : List Nat :=
  [0xd76aa478, 0xe8c7b756, 0x242070db, 0xc1bdceee, 0xf57c0faf, 0x4787c62a,
   0xa8304613, 0xfd469501, 0x698098d8, 0x8b44f7af, 0xffff5bb1, 0x895cd7be,
   0x6b901122, 0xfd987193, 0xa679438e, 0x49b40821, 0xf61e2562, 0xc040b340,
   0x265e5a51, 0xe9b6c7aa, 0xd62f105d, 0x02441453, 0xd8a1e681, 0xe7d3fbc8,
   0x21e1cde6, 0xc33707d6, 0xf4d50d87, 0x455a14ed, 0xa9e3e905, 0xfcefa3f8,
   0x676f02d9, 0x8d2a4c8a, 0xfffa3942, 0x8771f681, 0x6d9d6122, 0xfde5380c,
   0xa4beea44, 0x4bdecfa9, 0xf6bb4b60, 0xbebfbc70, 0x289b7ec6, 0xeaa127fa,
   0xd4ef3085, 0x04881d05, 0xd9d4d039, 0xe6db99e5, 0x1fa27cf8, 0xc4ac5665,
   0xf4292244, 0x432aff97, 0xab9423a7, 0xfc93a039, 0x655b59c3, 0x8f0ccc92,
   0xffeff47d, 0x85845dd1, 0x6fa87e4f, 0xfe2ce6e0, 0xa3014314, 0x4e0811a1,
   0xf7537e82, 0xbd3af235, 0x2ad7d2bb, 0xeb86d391]

/-- Per-round left-rotation amounts of MD5. -/
def md5S : List Nat :=
  [7, 12, 17, 22, 7, 12, 17, 22, 7, 12, 17, 22, 7, 12, 17, 22,
   5, 9, 14, 20, 5, 9, 14, 20, 5, 9, 14, 20, 5, 9, 14, 20,
   4, 11, 16, 23, 4, 11, 16, 23, 4, 11, 16, 23, 4, 11, 16, 23,
   6, 10, 15, 21, 6, 10, 15, 21, 6, 10, 15, 21, 6, 10, 15, 21]

/-- Round function and message-word index of MD5 round `i`. -/
def md5F (i b c d : Nat) : Nat × Nat :=
  if i < 16 then ((b &&& c) ||| (not32 b &&& d), i)
  else if i < 32 then ((d &&& b) ||| (not32 d &&& c), (5 * i + 1) % 16)
  else if i < 48 then (b ^^^ c ^^^ d, (3 * i + 5) % 16)
  else (c ^^^ (b ||| not32 d), (7 * i) % 16)

/-- Rounds `i, i+1, ..., i+n-1` of MD5 over the 16 message words `m`. -/
def md5Rounds : Nat → Nat → List Nat → Md5State → Md5State
  | 0, _, _, s => s
  | n + 1, i, m, s =>
    let fg := md5F i s.b s.c s.d
    let f := add32 (add32 (add32 fg.1 s.a) (md5K.getD i 0)) (m.getD fg.2 0)
    md5Rounds n (i + 1) m ⟨s.d, add32 s.b (rotl32 f (md5S.getD i 0)), s.b, s.c⟩

/-- One MD5 block: 64 rounds, then the feed-forward addition. -/
def md5Block (s : Md5State) (block : List Nat) : Md5State :=
  let r := md5Rounds 64 0 (leWords 16 block) s
  ⟨add32 s.a r.a, add32 s.b r.b, add32 s.c r.c, add32 s.d r.d⟩

/-- The function `md5.Sum`: the 16-byte MD5 digest of `msg`. -/
def md5Sum (msg : List Nat) : List Nat :=
  let padded := padMessage le64Bytes msg
  let s := (blocks64 (padded.length / 64) padded).foldl md5Block md5Init
  le32Bytes s.a ++ le32Bytes s.b ++ le32Bytes s.c ++ le32Bytes s.d

/-! ## `encoding/hex` -/

/-- The table `hextable` of `encoding/hex`. -/
def hextable : List Char := "0123456789abcdef".data

/-- The function `hex.EncodeToString`: two characters per byte, the high
nibble first. -/
def hexEncode (src : List Nat) : List Char :=
  src.flatMap fun v => [hextable.getD (v >>> 4) '0', hextable.getD (v &&& 0x0f) '0']

/-! ## `strings` -/

/-- The scan of `strings.Split` for a one-character separator: `cur` holds, in
reverse, the characters read since the last separator. -/
def splitLoop (sep : Char) : List Char → List Char → List (List Char)
  | [], cur => [cur.reverse]
  | c :: cs, cur =>
    if c = sep then cur.reverse :: splitLoop sep cs []
    else splitLoop sep cs (c :: cur)

/-- The function `strings.Split(s, sep)` for a separator of one character, the
only form the package uses: the pieces of `s` between occurrences of `sep`. -/
def Split (s : String) (sep : Char) : List String :=
  (splitLoop sep s.data []).map String.mk

/-- The function `strings.Join(elems, sep)`. -/
def Join (elems : List String) (sep : String) : String :=
  sep.intercalate elems

/-! ## `path/filepath` (Unix) -/

/-- The loop of `filepath.Ext`, reading the path backwards from its last
character; `acc` holds the characters already passed. -/
def extScan : List Char → List Char → List Char
  | [], _ => []
  | c :: rest, acc =>
    if c = '/' then []
    else if c = '.' then c :: acc
    else extScan rest (c :: acc)

/-- The function `filepath.Ext`: the suffix of `path` beginning at the final
dot of its final element, empty when there is no such dot. -/
def Ext (path : String) : String :=
  ⟨extScan path.data.reverse []⟩

/-- The function `filepath.Base`: the last element of `path`.  Trailing slashes
are removed first; an empty path gives `.`, a path of slashes only gives `/`. -/
def Base (path : String) : String :=
  if path.data = [] then "."
  else
    let stripped := (path.data.reverse.dropWhile (· = '/')).reverse
    let last := (stripped.reverse.takeWhile (· ≠ '/')).reverse
    if last = [] then "/" else ⟨last⟩

/-! ## `storage/pathTranformFunc.go` -/

/-- The function `DefaultPathTransformFunc`. -/
def DefaultPathTransformFunc (storageRoot key : String) :
    Except RuntimePanic (String × String) := do
  let keyContains := Split key '+'
  let userDetails ← index keyContains 0
  let fileName ← index keyContains 1
  return (storageRoot ++ "/" ++ userDetails, fileName)

/-- The loop `for i := 0; i < sliceLen; i++` of `CASPathTransformFunc`, from
index `i` for `n` more iterations: block `i` is `hashStr[i*blockSize :
i*blockSize+blockSize]`. -/
def casBlocks (hashStr : List Char) (blockSize : Nat) :
    Nat → Nat → Except RuntimePanic (List String)
  | 0, _ => .ok []
  | n + 1, i =>
    match sliceStr hashStr (i * blockSize) (i * blockSize + blockSize) with
    | .error e => .error e
    | .ok block =>
      match casBlocks hashStr blockSize n (i + 1) with
      | .error e => .error e
      | .ok rest => .ok (String.mk block :: rest)

/-- The function `CASPathTransformFunc`. -/
def CASPathTransformFunc (storageRoot key : String) :
    Except RuntimePanic (String × String) := do
  let keyContains := Split key '+'
  let userDetails ← index keyContains 0
  let second ← index keyContains 1
  let fileExt := Ext second
  let fileName := Base second
  let hash := sha1Sum (toBytes userDetails)
  let hashStr := hexEncode hash
  let blockSize := 8
  let sliceLen := hashStr.length / blockSize
  let paths ← casBlocks hashStr blockSize sliceLen 0
  let fileNameBytes := md5Sum (toBytes fileName)
  let fileName := String.mk (hexEncode fileNameBytes)
  return (storageRoot ++ "/" ++ Join paths "/", fileName ++ fileExt)

/-! ## `Storage.CleanPath` -/

/-- The characters counted as hexadecimal: the digits and the letters `a`-`f`
in either case. -/
def isHexChar (c : Char) : Bool :=
  decide (c ∈ "0123456789abcdefABCDEF".data)

/-- The rest of `path` after the leading `lead`, when `path` begins with it. -/
def trimLead : List Char → List Char → Option (List Char)
  | [], path => some path
  | _ :: _, [] => none
  | a :: lead, c :: path => if a = c then trimLead lead path else none

/-- Modelled from the spec: `Storage.CleanPath` of `storage/storage.go`, which
is not among the sources (only its test `TestStorage_CleanPath` is).  The path
is taken relative to the storage root, cut at `/`, and accepted when it has
exactly 5 segments, each of exactly 8 hexadecimal characters. -/
def CleanPath (storageRoot path : String) : Bool :=
  match trimLead (storageRoot.data ++ ['/']) path.data with
  | none => false
  | some relative =>
    let segments := splitLoop '/' relative []
    segments.length == 5 && segments.all fun seg => seg.length == 8 && seg.all isHexChar

/-! ## Auxiliary definitions for the statements -/

/-- The five 8-character blocks of a 40-character string. -/
def fiveBlocks (l : List Char) : List String :=
  [⟨l.take 8⟩, ⟨(l.drop 8).take 8⟩, ⟨(l.drop 16).take 8⟩, ⟨(l.drop 24).take 8⟩,
    ⟨(l.drop 32).take 8⟩]

/-! ## Lemmas on the library functions -/

set_option maxRecDepth 100000

/-- A string without the separator is a single piece. -/
theorem splitLoop_no_sep (sep : Char) (s cur : List Char) (h : sep ∉ s) :
    splitLoop sep s cur = [cur.reverse ++ s] := by
  induction s generalizing cur with
  | nil => simp [splitLoop]
  | cons c cs ih =>
    have hc : c ≠ sep := fun e => h (by simp [e])
    have hcs : sep ∉ cs := fun e => h (by simp [e])
    simp [splitLoop, hc, ih _ hcs]

/-- The scan of `o ++ sep :: f` closes its first piece at that separator when
`o` holds no separator. -/
theorem splitLoop_append_sep (sep : Char) (o f cur : List Char) (h : sep ∉ o) :
    splitLoop sep (o ++ sep :: f) cur = (cur.reverse ++ o) :: splitLoop sep f [] := by
  induction o generalizing cur with
  | nil => simp [splitLoop]
  | cons c cs ih =>
    have hc : c ≠ sep := fun e => h (by simp [e])
    have hcs : sep ∉ cs := fun e => h (by simp [e])
    simp [splitLoop, hc, ih _ hcs]

/-- The scan always yields at least one piece. -/
theorem splitLoop_ne_nil (sep : Char) (s cur : List Char) :
    ∃ p ps, splitLoop sep s cur = p :: ps := by
  induction s generalizing cur with
  | nil => exact ⟨_, _, rfl⟩
  | cons c cs ih =>
    by_cases hc : c = sep
    · exact ⟨cur.reverse, splitLoop sep cs [], by simp [splitLoop, hc]⟩
    · obtain ⟨p, ps, hp⟩ := ih (c :: cur)
      exact ⟨p, ps, by simp [splitLoop, hc, hp]⟩

/-- Splitting `o + "+" + f` gives `o` first when `o` has no `+`. -/
theorem Split_key (o f : String) (h : '+' ∉ o.data) :
    Split (o ++ "+" ++ f) '+' = o :: Split f '+' := by
  have hd : (o ++ "+" ++ f).data = o.data ++ '+' :: f.data := by
    simp [String.data_append]
  simp [Split, hd, splitLoop_append_sep _ _ _ _ h]

/-- A string without `+` splits into itself. -/
theorem Split_no_sep (f : String) (h : '+' ∉ f.data) : Split f '+' = [f] := by
  simp [Split, splitLoop_no_sep _ _ _ h]

/-- The function `strings.Split` never returns an empty list. -/
theorem Split_cons (f : String) : ∃ p ps, Split f '+' = p :: ps := by
  obtain ⟨p, ps, hp⟩ := splitLoop_ne_nil '+' f.data []
  exact ⟨⟨p⟩, ps.map String.mk, by simp [Split, hp]⟩

/-- The SHA-1 model reproduces the test vectors of RFC 3174 (one-block and
two-block messages) and the digest of the empty message. -/
theorem sha1Sum_vectors :
    hexEncode (sha1Sum (toBytes "abc")) = "a9993e364706816aba3e25717850c26c9cd0d89d".data ∧
    hexEncode (sha1Sum (toBytes "")) = "da39a3ee5e6b4b0d3255bfef95601890afd80709".data ∧
    hexEncode (sha1Sum (toBytes "abcdbcdecdefdefgefghfghighijhijkijkljklmklmnlmnomnopnopq")) =
      "84983e441c3bd26ebaae4aa1f95129e5e54670f1".data := by
  refine ⟨by decide, by decide, by decide⟩

/-- The MD5 model reproduces the test vectors of RFC 1321 (one-block and
two-block messages). -/
theorem md5Sum_vectors :
    hexEncode (md5Sum (toBytes "abc")) = "900150983cd24fb0d6963f7d28e17f72".data ∧
    hexEncode (md5Sum (toBytes "")) = "d41d8cd98f00b204e9800998ecf8427e".data ∧
    hexEncode (md5Sum (toBytes
        "12345678901234567890123456789012345678901234567890123456789012345678901234567890")) =
      "57edf4a22be3c955ac49da2e2107b67a".data := by
  refine ⟨by decide, by decide, by decide⟩

/-- A SHA-1 digest has 20 bytes. -/
theorem sha1Sum_length (msg : List Nat) : (sha1Sum msg).length = 20 := by
  simp [sha1Sum, be32Bytes]

/-- An MD5 digest has 16 bytes. -/
theorem md5Sum_length (msg : List Nat) : (md5Sum msg).length = 16 := by
  simp [md5Sum, le32Bytes]

/-- Hex encoding doubles the length. -/
theorem hexEncode_length (bs : List Nat) : (hexEncode bs).length = 2 * bs.length := by
  induction bs with
  | nil => rfl
  | cons b bs ih => simp [hexEncode, List.flatMap_cons] at ih ⊢; omega

/-- Every table lookup, the default included, gives a lowercase hex digit. -/
theorem hextable_getD_mem (i : Nat) : hextable.getD i '0' ∈ hextable := by
  by_cases h : i < 16
  · interval_cases i <;> decide
  · have : hextable.length ≤ i := by simp [hextable]; omega
    rw [List.getD_eq_default _ _ this]; decide

/-- A hex encoding consists of lowercase hex digits. -/
theorem hexEncode_mem (bs : List Nat) : ∀ c ∈ hexEncode bs, c ∈ hextable := by
  intro c hc
  simp only [hexEncode, List.mem_flatMap] at hc
  obtain ⟨b, _, hb⟩ := hc
  simp only [List.mem_cons, List.mem_singleton, List.not_mem_nil, or_false] at hb
  rcases hb with hb | hb <;> subst hb <;> exact hextable_getD_mem _

/-- On a string of 40 characters the block loop runs 5 times without a panic. -/
theorem casBlocks_forty (l : List Char) (h : l.length = 40) :
    casBlocks l 8 5 0 = .ok [⟨l.take 8⟩, ⟨(l.drop 8).take 8⟩, ⟨(l.drop 16).take 8⟩,
      ⟨(l.drop 24).take 8⟩, ⟨(l.drop 32).take 8⟩] := by
  simp [casBlocks, sliceStr, h]

/-- The five blocks of a 40-character string concatenate to the string. -/
theorem forty_blocks_concat (l : List Char) (h : l.length = 40) :
    l.take 8 ++ ((l.drop 8).take 8 ++ ((l.drop 16).take 8 ++
      ((l.drop 24).take 8 ++ (l.drop 32).take 8))) = l := by
  have e : l.take 40 = l := List.take_of_length_le (by omega)
  have e1 : l.take (8 + (8 + (8 + (8 + 8)))) = l := e
  rw [List.take_add, List.take_add, List.take_add, List.take_add] at e1
  simpa [List.drop_drop] using e1

/-- The hex SHA-1 digest of any string has 40 characters. -/
theorem hashStr_length (u : String) : (hexEncode (sha1Sum (toBytes u))).length = 40 := by
  rw [hexEncode_length, sha1Sum_length]

/-- The value of `CASPathTransformFunc` on a key with at least two parts. -/
theorem CAS_of_split (r key u s : String) (rest : List String)
    (h : Split key '+' = u :: s :: rest) :
    CASPathTransformFunc r key =
      .ok (r ++ "/" ++ Join (fiveBlocks (hexEncode (sha1Sum (toBytes u)))) "/",
        String.mk (hexEncode (md5Sum (toBytes (Base s)))) ++ Ext s) := by
  have h40 := hashStr_length u
  have hb := casBlocks_forty _ h40
  simp only [CASPathTransformFunc, h, index, List.get?, h40, bind, Except.bind, pure, Except.pure]
  simp only [show 40 / 8 = 5 from rfl, hb, fiveBlocks]

/-- On a key of one part `CASPathTransformFunc` panics at `keyContains[1]`. -/
theorem CAS_of_one (r key u : String) (h : Split key '+' = [u]) :
    CASPathTransformFunc r key = .error (.indexOutOfRange 1 1) := by
  simp [CASPathTransformFunc, h, index, bind, Except.bind]

/-- The value of `DefaultPathTransformFunc` on a key with at least two parts. -/
theorem Default_of_split (r key u s : String) (rest : List String)
    (h : Split key '+' = u :: s :: rest) :
    DefaultPathTransformFunc r key = .ok (r ++ "/" ++ u, s) := by
  simp [DefaultPathTransformFunc, h, index, bind, Except.bind, pure, Except.pure]

/-- On a key of one part `DefaultPathTransformFunc` panics at `keyContains[1]`. -/
theorem Default_of_one (r key u : String) (h : Split key '+' = [u]) :
    DefaultPathTransformFunc r key = .error (.indexOutOfRange 1 1) := by
  simp [DefaultPathTransformFunc, h, index, bind, Except.bind]

/-- Joining five elements with `/`. -/
theorem Join_five (a b c d e : String) :
    Join [a, b, c, d, e] "/" = a ++ "/" ++ b ++ "/" ++ c ++ "/" ++ d ++ "/" ++ e := by
  simp [Join, String.intercalate, String.intercalate.go]
/-- On a non-empty name without `/`, `filepath.Base` is the identity. -/
theorem Base_of_plain (f : String) (hne : f.data ≠ []) (hs : '/' ∉ f.data) : Base f = f := by
  have h1 : f.data.reverse.dropWhile (· = '/') = f.data.reverse := by
    cases hr : f.data.reverse with
    | nil => simp at hr; exact absurd hr hne
    | cons c cs =>
      have : c ≠ '/' := by
        intro e
        apply hs
        have : c ∈ f.data.reverse := by simp [hr]
        simpa [e] using this
      simp [List.dropWhile, this]
  have h2 : f.data.reverse.takeWhile (· ≠ '/') = f.data.reverse := by
    rw [List.takeWhile_eq_self_iff]
    intro c hc
    have : c ∈ f.data := by simpa using hc
    simp
    rintro rfl
    exact hs this
  unfold Base
  rw [if_neg hne]
  simp only [h1, List.reverse_reverse, h2]
  rw [if_neg hne]

/-- The function `trimLead` succeeds exactly on the paths that begin with the lead. -/
theorem trimLead_eq_some (lead path t : List Char) :
    trimLead lead path = some t ↔ path = lead ++ t := by
  induction lead generalizing path with
  | nil => simp [trimLead, eq_comm]
  | cons a lead ih =>
    cases path with
    | nil => simp [trimLead]
    | cons c path =>
      by_cases hac : a = c
      · simp [trimLead, hac, ih]
      · simp [trimLead, hac]
        intro h; exact absurd h.symm hac

/-- Joining the pieces of a scan with the separator restores the string. -/
theorem splitLoop_intercalate (sep : Char) (s cur : List Char) :
    List.intercalate [sep] (splitLoop sep s cur) = cur.reverse ++ s := by
  induction s generalizing cur with
  | nil => simp [splitLoop, List.intercalate]
  | cons c cs ih =>
    by_cases hc : c = sep
    · obtain ⟨p, ps, hp⟩ := splitLoop_ne_nil sep cs []
      have := ih []
      rw [hp] at this
      simp [splitLoop, hc, hp, List.intercalate] at this ⊢
      exact this
    · simp [splitLoop, hc, ih]

/-- Five pieces without `/`, joined by `/`, split back into the five pieces. -/
theorem splitLoop_five (a b c d e : List Char) (ha : '/' ∉ a) (hb : '/' ∉ b)
    (hc : '/' ∉ c) (hd : '/' ∉ d) (he : '/' ∉ e) :
    splitLoop '/' (a ++ '/' :: (b ++ '/' :: (c ++ '/' :: (d ++ '/' :: e)))) [] =
      [a, b, c, d, e] := by
  rw [splitLoop_append_sep _ _ _ _ ha, splitLoop_append_sep _ _ _ _ hb,
    splitLoop_append_sep _ _ _ _ hc, splitLoop_append_sep _ _ _ _ hd,
    splitLoop_no_sep _ _ _ he]
  simp

/-- A string of hexadecimal characters holds no `/`. -/
theorem slash_not_hex (s : List Char) (h : ∀ c ∈ s, isHexChar c = true) : '/' ∉ s :=
  fun hs => absurd (h _ hs) (by decide)

/-- A string holding the separator scans into at least two pieces. -/
theorem splitLoop_two (sep : Char) (a b cur : List Char) :
    ∃ u s rest, splitLoop sep (a ++ sep :: b) cur = u :: s :: rest := by
  induction a generalizing cur with
  | nil =>
    obtain ⟨p, ps, hp⟩ := splitLoop_ne_nil sep b []
    exact ⟨cur.reverse, p, ps, by simp [splitLoop, hp]⟩
  | cons c cs ih =>
    by_cases hc : c = sep
    · obtain ⟨p, ps, hp⟩ := splitLoop_ne_nil sep (cs ++ sep :: b) []
      exact ⟨cur.reverse, p, ps, by simp [splitLoop, hc, hp]⟩
    · obtain ⟨u, s, rest, h⟩ := ih (c :: cur)
      exact ⟨u, s, rest, by simp [splitLoop, hc, h]⟩

/-- The loop of `filepath.Ext` returns nothing, or a dot followed by
characters that are neither `/` nor `.`, as long as those it has passed are
neither. -/
theorem extScan_shape (rev acc : List Char) (hs : '/' ∉ acc) (hd : '.' ∉ acc) :
    extScan rev acc = [] ∨
      ∃ t, extScan rev acc = '.' :: t ∧ '/' ∉ t ∧ '.' ∉ t := by
  induction rev generalizing acc with
  | nil => exact Or.inl rfl
  | cons c rest ih =>
    by_cases h1 : c = '/'
    · exact Or.inl (by simp [extScan, h1])
    · by_cases h2 : c = '.'
      · exact Or.inr ⟨acc, by simp [extScan, h2], hs, hd⟩
      · have hs' : '/' ∉ c :: acc := by
          simp only [List.mem_cons, not_or]
          exact ⟨fun e => h1 e.symm, hs⟩
        have hd' : '.' ∉ c :: acc := by
          simp only [List.mem_cons, not_or]
          exact ⟨fun e => h2 e.symm, hd⟩
        simpa [extScan, h1, h2] using ih (c :: acc) hs' hd'

/-- The result of `filepath.Ext` is empty, or a dot followed by characters
that are neither `/` nor `.`. -/
theorem Ext_shape (path : String) :
    Ext path = "" ∨ ∃ t : String, Ext path = "." ++ t ∧ '/' ∉ t.data ∧ '.' ∉ t.data := by
  rcases extScan_shape path.data.reverse [] (by simp) (by simp) with h | ⟨t, h, hs, hd⟩
  · exact Or.inl (by simp [Ext, h])
  · exact Or.inr ⟨⟨t⟩, by simp [Ext, h]; rfl, hs, hd⟩

/-- A key that holds a `+` splits into at least two parts. -/
theorem Split_of_mem (key : String) (h : '+' ∈ key.data) :
    ∃ u s rest, Split key '+' = u :: s :: rest := by
  obtain ⟨a, b, hab⟩ := List.append_of_mem h
  obtain ⟨u, s, rest, hsp⟩ := splitLoop_two '+' a b []
  exact ⟨⟨u⟩, ⟨s⟩, rest.map String.mk, by simp [Split, hab, hsp]⟩

/-! ## The claims -/

/-- C1: for every storage root `r` and key `o + "+" + f` whose owner `o` has no
`+`, `CASPathTransformFunc` returns the directory `r/b0/b1/b2/b3/b4` with
exactly five blocks, each of 8 lowercase hexadecimal characters, whose
concatenation is the 40-character hex encoding of the 20-byte SHA-1 digest
of `o`. -/
theorem CAS_directory_blocks (r o f : String) (ho : '+' ∉ o.data) :
    ∃ b0 b1 b2 b3 b4 name : String,
      CASPathTransformFunc r (o ++ "+" ++ f) =
        .ok (r ++ "/" ++ b0 ++ "/" ++ b1 ++ "/" ++ b2 ++ "/" ++ b3 ++ "/" ++ b4, name) ∧
      (∀ b ∈ [b0, b1, b2, b3, b4],
        b.data.length = 8 ∧ ∀ c ∈ b.data, c ∈ "0123456789abcdef".data) ∧
      (b0 ++ b1 ++ b2 ++ b3 ++ b4).data = hexEncode (sha1Sum (toBytes o)) ∧
      (sha1Sum (toBytes o)).length = 20 ∧
      (hexEncode (sha1Sum (toBytes o))).length = 40 := by
  obtain ⟨s, rest, hs⟩ := Split_cons f
  have hsplit : Split (o ++ "+" ++ f) '+' = o :: s :: rest := by
    rw [Split_key o f ho, hs]
  have h40 := hashStr_length o
  have hmem := hexEncode_mem (sha1Sum (toBytes o))
  have hsub : ∀ (i n : Nat), ∀ c ∈ ((hexEncode (sha1Sum (toBytes o))).drop i).take n,
      c ∈ "0123456789abcdef".data :=
    fun i n c hc => hmem c (List.mem_of_mem_drop (List.mem_of_mem_take hc))
  refine ⟨⟨(hexEncode (sha1Sum (toBytes o))).take 8⟩,
    ⟨((hexEncode (sha1Sum (toBytes o))).drop 8).take 8⟩,
    ⟨((hexEncode (sha1Sum (toBytes o))).drop 16).take 8⟩,
    ⟨((hexEncode (sha1Sum (toBytes o))).drop 24).take 8⟩,
    ⟨((hexEncode (sha1Sum (toBytes o))).drop 32).take 8⟩,
    String.mk (hexEncode (md5Sum (toBytes (Base s)))) ++ Ext s,
    ?_, ?_, ?_, sha1Sum_length _, h40⟩
  · rw [CAS_of_split r _ o s rest hsplit, fiveBlocks, Join_five]
    simp only [String.append_assoc]
  · intro b hb
    simp only [List.mem_cons, List.mem_singleton, List.not_mem_nil, or_false] at hb
    rcases hb with hb | hb | hb | hb | hb <;> subst hb
    · exact ⟨by simp [h40], fun c hc => hmem c (List.mem_of_mem_take hc)⟩
    · exact ⟨by simp [h40], hsub 8 8⟩
    · exact ⟨by simp [h40], hsub 16 8⟩
    · exact ⟨by simp [h40], hsub 24 8⟩
    · exact ⟨by simp [h40], hsub 32 8⟩
  · simpa [String.data_append] using forty_blocks_concat _ h40

/-- Witness of C1 at root `test`, owner `user1`, file name `abc.pdf`. -/
theorem CAS_directory_blocks_witness :
    '+' ∉ "user1".data ∧
    ∃ b0 b1 b2 b3 b4 name : String,
      CASPathTransformFunc "test" ("user1" ++ "+" ++ "abc.pdf") =
        .ok ("test" ++ "/" ++ b0 ++ "/" ++ b1 ++ "/" ++ b2 ++ "/" ++ b3 ++ "/" ++ b4, name) ∧
      (∀ b ∈ [b0, b1, b2, b3, b4],
        b.data.length = 8 ∧ ∀ c ∈ b.data, c ∈ "0123456789abcdef".data) ∧
      (b0 ++ b1 ++ b2 ++ b3 ++ b4).data = hexEncode (sha1Sum (toBytes "user1")) ∧
      (sha1Sum (toBytes "user1")).length = 20 ∧
      (hexEncode (sha1Sum (toBytes "user1"))).length = 40 :=
  ⟨by decide, CAS_directory_blocks "test" "user1" "abc.pdf" (by decide)⟩

/-- C3: for every storage root `r`, owner `o` and file name `f` without `+`,
`DefaultPathTransformFunc r (o + "+" + f)` returns exactly `(r + "/" + o, f)`;
the owner need not even be non-empty. -/
theorem Default_passes_through (r o f : String) (ho : '+' ∉ o.data)
    (hf : '+' ∉ f.data) :
    DefaultPathTransformFunc r (o ++ "+" ++ f) = .ok (r ++ "/" ++ o, f) := by
  have hsplit : Split (o ++ "+" ++ f) '+' = o :: f :: [] := by
    rw [Split_key o f ho, Split_no_sep f hf]
  exact Default_of_split r _ o f [] hsplit

/-- Witness of C3 at root `test`, owner `user1`, file name `abc.pdf`. -/
theorem Default_passes_through_witness :
    '+' ∉ "user1".data ∧ '+' ∉ "abc.pdf".data ∧
    DefaultPathTransformFunc "test" ("user1" ++ "+" ++ "abc.pdf") =
      .ok ("test" ++ "/" ++ "user1", "abc.pdf") :=
  ⟨by decide, by decide,
    Default_passes_through "test" "user1" "abc.pdf" (by decide) (by decide)⟩


/-- C2, counterexample: for the empty file name the stored name is the digest
of `.` (what `filepath.Base` makes of the empty string), not the digest of the
empty name; for `a/b.txt` it is the digest of `b.txt`, not of `a/b.txt`. -/
theorem CAS_name_not_digest_of_full_name :
    ('+' ∉ "user1".data ∧ '+' ∉ "".data ∧ '+' ∉ "a/b.txt".data) ∧
    CASPathTransformFunc "test" ("user1" ++ "+" ++ "") =
      .ok ("test/b3daa77b/4c04a955/1b8781d0/3191fe09/8f325e67",
        "5058f1af8388633f609cadb75a75dc9d") ∧
    String.mk (hexEncode (md5Sum (toBytes ""))) ++ Ext "" =
      "d41d8cd98f00b204e9800998ecf8427e" ∧
    CASPathTransformFunc "test" ("user1" ++ "+" ++ "a/b.txt") =
      .ok ("test/b3daa77b/4c04a955/1b8781d0/3191fe09/8f325e67",
        "ce506ace22f28ac2bc4f933d4cf989fd.txt") ∧
    String.mk (hexEncode (md5Sum (toBytes "a/b.txt"))) ++ Ext "a/b.txt" =
      "239f5314ae50beaabc7a58bd2c979a06.txt" ∧
    ¬ ∀ r o f : String, '+' ∉ o.data → '+' ∉ f.data →
      ∃ p, CASPathTransformFunc r (o ++ "+" ++ f) =
        .ok (p, String.mk (hexEncode (md5Sum (toBytes f))) ++ Ext f) := by
  have e1 : CASPathTransformFunc "test" ("user1" ++ "+" ++ "") =
      .ok ("test/b3daa77b/4c04a955/1b8781d0/3191fe09/8f325e67",
        "5058f1af8388633f609cadb75a75dc9d") := by decide
  have e2 : String.mk (hexEncode (md5Sum (toBytes ""))) ++ Ext "" =
      "d41d8cd98f00b204e9800998ecf8427e" := by decide
  refine ⟨by decide, e1, e2, by decide, by decide, ?_⟩
  intro h
  obtain ⟨p, hp⟩ := h "test" "user1" "" (by decide) (by decide)
  rw [e1, e2] at hp
  injection hp with hp
  injection hp with _ hp
  exact absurd hp (by decide)

/-- C2, amended: for every storage root `r`, owner `o` and file name `f`
without `+`, the file name returned by `CASPathTransformFunc r (o + "+" + f)`
is the hex MD5 digest of `filepath.Base f` followed by `filepath.Ext f`; and
`filepath.Base f` is `f` itself whenever `f` is non-empty and has no `/`. -/
theorem CAS_name_digest_of_base (r o f : String) (ho : '+' ∉ o.data)
    (hf : '+' ∉ f.data) :
    (∃ p, CASPathTransformFunc r (o ++ "+" ++ f) =
      .ok (p, String.mk (hexEncode (md5Sum (toBytes (Base f)))) ++ Ext f)) ∧
    (md5Sum (toBytes (Base f))).length = 16 ∧
    (f.data ≠ [] → '/' ∉ f.data → Base f = f) := by
  have hsplit : Split (o ++ "+" ++ f) '+' = o :: f :: [] := by
    rw [Split_key o f ho, Split_no_sep f hf]
  exact ⟨⟨_, CAS_of_split r _ o f [] hsplit⟩, md5Sum_length _, Base_of_plain f⟩

/-- Witness of the amended C2 at root `test`, owner `user1`, file name
`abc.pdf`. -/
theorem CAS_name_digest_of_base_witness :
    '+' ∉ "user1".data ∧ '+' ∉ "abc.pdf".data ∧
    (∃ p, CASPathTransformFunc "test" ("user1" ++ "+" ++ "abc.pdf") =
      .ok (p, String.mk (hexEncode (md5Sum (toBytes (Base "abc.pdf")))) ++ Ext "abc.pdf")) ∧
    (md5Sum (toBytes (Base "abc.pdf"))).length = 16 ∧
    ("abc.pdf".data ≠ [] → '/' ∉ "abc.pdf".data → Base "abc.pdf" = "abc.pdf") :=
  ⟨by decide, by decide,
    CAS_name_digest_of_base "test" "user1" "abc.pdf" (by decide) (by decide)⟩

/-- C4, counterexample: the key `a+b+c` splits into three parts, yet both
transforms return a pair built from the first two; the key `abc` splits into
one part and both transforms panic on `keyContains[1]`.  Hence the stated rule
(a returned `MalformedKey` error, no pair, no panic) fails. -/
theorem transforms_no_MalformedKey :
    (Split "a+b+c" '+').length = 3 ∧
    DefaultPathTransformFunc "test" "a+b+c" = .ok ("test/a", "b") ∧
    CASPathTransformFunc "test" "a+b+c" =
      .ok ("test/86f7e437/faa5a7fc/e15d1ddc/b9eaeaea/377667b8",
        "92eb5ffee6ae2fec3ad71c777531578f") ∧
    (Split "abc" '+').length = 1 ∧
    DefaultPathTransformFunc "test" "abc" = .error (.indexOutOfRange 1 1) ∧
    CASPathTransformFunc "test" "abc" = .error (.indexOutOfRange 1 1) ∧
    ¬ ∀ r key : String, (Split key '+').length ≠ 2 →
      (∀ pn, DefaultPathTransformFunc r key ≠ .ok pn) ∧
      (∀ pn, CASPathTransformFunc r key ≠ .ok pn) := by
  have e : DefaultPathTransformFunc "test" "a+b+c" = .ok ("test/a", "b") := by decide
  refine ⟨by decide, e, by decide, by decide, by decide, by decide, ?_⟩
  intro h
  exact (h "test" "a+b+c" (by decide)).1 _ e

/-- C4, amended: for every storage root and every key that splits on `+` into
three or more parts, both transforms return a pair built from the first two
parts and ignore the others: the default transform returns `(root/first,
second)`, the CAS transform the digests of the first and of the second. -/
theorem transforms_ignore_extra_parts (r key : String)
    (h : 3 ≤ (Split key '+').length) :
    ∃ u s rest, Split key '+' = u :: s :: rest ∧ rest ≠ [] ∧
      DefaultPathTransformFunc r key = .ok (r ++ "/" ++ u, s) ∧
      CASPathTransformFunc r key =
        .ok (r ++ "/" ++ Join (fiveBlocks (hexEncode (sha1Sum (toBytes u)))) "/",
          String.mk (hexEncode (md5Sum (toBytes (Base s)))) ++ Ext s) := by
  match hk : Split key '+', h with
  | u :: s :: t :: rest, _ =>
    exact ⟨u, s, t :: rest, rfl, by simp, Default_of_split r key u s _ hk,
      CAS_of_split r key u s _ hk⟩

/-- Witness of the amended C4 at root `test` and key `a+b+c`. -/
theorem transforms_ignore_extra_parts_witness :
    3 ≤ (Split "a+b+c" '+').length ∧
    ∃ u s rest, Split "a+b+c" '+' = u :: s :: rest ∧ rest ≠ [] ∧
      DefaultPathTransformFunc "test" "a+b+c" = .ok ("test" ++ "/" ++ u, s) ∧
      CASPathTransformFunc "test" "a+b+c" =
        .ok ("test" ++ "/" ++ Join (fiveBlocks (hexEncode (sha1Sum (toBytes u)))) "/",
          String.mk (hexEncode (md5Sum (toBytes (Base s)))) ++ Ext s) :=
  ⟨by decide, transforms_ignore_extra_parts "test" "a+b+c" (by decide)⟩

/-- C5: on the key of the test fixture, `user1^abc.pdf`, the CAS transform
panics (`keyContains[1]` on a split of length 1, since the code splits on `+`),
where the test expects the pair; the expected pair is what the code returns
for `user1+abc.pdf`. -/
theorem CAS_fixture_key_panics :
    Split "user1^abc.pdf" '+' = ["user1^abc.pdf"] ∧
    CASPathTransformFunc "test" "user1^abc.pdf" = .error (.indexOutOfRange 1 1) ∧
    CASPathTransformFunc "test" "user1+abc.pdf" =
      .ok ("test/b3daa77b/4c04a955/1b8781d0/3191fe09/8f325e67",
        "c7634722815d7f16a4668d0b52f3038b.pdf") := by
  refine ⟨by decide, by decide, by decide⟩

/-- C6: on the key of the test fixture, `user1^abc.pdf`, the default transform
panics where the test expects `(test/user1, abc.pdf)`, which is what the code
returns for `user1+abc.pdf`. -/
theorem Default_fixture_key_panics :
    DefaultPathTransformFunc "test" ("user1" ++ "^" ++ "abc.pdf") =
      .error (.indexOutOfRange 1 1) ∧
    DefaultPathTransformFunc "test" "user1+abc.pdf" = .ok ("test/user1", "abc.pdf") := by
  refine ⟨by decide, by decide⟩

/-- C7: under `CASPathTransformFunc` the directory depends only on the owner
and the stored file name only on the file name: for owners `o`, `o'` and file
names `f`, `f'` without `+`, the keys `o+f` and `o+f'` give the same directory,
and the keys `o+f` and `o'+f` give the same file name. -/
theorem CAS_outputs_separated (r o o' f f' : String) (ho : '+' ∉ o.data)
    (ho' : '+' ∉ o'.data) (hf : '+' ∉ f.data) (hf' : '+' ∉ f'.data) :
    (∃ p n n', CASPathTransformFunc r (o ++ "+" ++ f) = .ok (p, n) ∧
      CASPathTransformFunc r (o ++ "+" ++ f') = .ok (p, n')) ∧
    (∃ p p' n, CASPathTransformFunc r (o ++ "+" ++ f) = .ok (p, n) ∧
      CASPathTransformFunc r (o' ++ "+" ++ f) = .ok (p', n)) := by
  have h1 : Split (o ++ "+" ++ f) '+' = o :: f :: [] := by
    rw [Split_key o f ho, Split_no_sep f hf]
  have h2 : Split (o ++ "+" ++ f') '+' = o :: f' :: [] := by
    rw [Split_key o f' ho, Split_no_sep f' hf']
  have h3 : Split (o' ++ "+" ++ f) '+' = o' :: f :: [] := by
    rw [Split_key o' f ho', Split_no_sep f hf]
  exact ⟨⟨_, _, _, CAS_of_split r _ o f [] h1, CAS_of_split r _ o f' [] h2⟩,
    ⟨_, _, _, CAS_of_split r _ o f [] h1, CAS_of_split r _ o' f [] h3⟩⟩

/-- Witness of C7 at root `test`, owners `user1`, `user2`, file names
`abc.pdf`, `abcd.pdf`. -/
theorem CAS_outputs_separated_witness :
    ('+' ∉ "user1".data ∧ '+' ∉ "user2".data ∧ '+' ∉ "abc.pdf".data ∧
      '+' ∉ "abcd.pdf".data) ∧
    (∃ p n n', CASPathTransformFunc "test" ("user1" ++ "+" ++ "abc.pdf") = .ok (p, n) ∧
      CASPathTransformFunc "test" ("user1" ++ "+" ++ "abcd.pdf") = .ok (p, n')) ∧
    (∃ p p' n, CASPathTransformFunc "test" ("user1" ++ "+" ++ "abc.pdf") = .ok (p, n) ∧
      CASPathTransformFunc "test" ("user2" ++ "+" ++ "abc.pdf") = .ok (p', n)) :=
  ⟨by decide, CAS_outputs_separated "test" "user1" "user2" "abc.pdf" "abcd.pdf"
    (by decide) (by decide) (by decide) (by decide)⟩

/-- C8: whenever `DefaultPathTransformFunc r key` or `CASPathTransformFunc r
key` returns a pair, its directory path begins with `r` followed by `/`. -/
theorem directory_begins_with_root (r key p n : String)
    (h : DefaultPathTransformFunc r key = .ok (p, n) ∨
      CASPathTransformFunc r key = .ok (p, n)) :
    ∃ tail : String, p = r ++ "/" ++ tail := by
  obtain ⟨u, ps, hu⟩ := Split_cons key
  cases ps with
  | nil =>
    rw [Default_of_one r key u hu, CAS_of_one r key u hu] at h
    rcases h with h | h <;> cases h
  | cons s rest =>
    rw [Default_of_split r key u s rest hu, CAS_of_split r key u s rest hu] at h
    rcases h with h | h
    · injection h with h
      injection h with h _
      exact ⟨_, h.symm⟩
    · injection h with h
      injection h with h _
      exact ⟨_, h.symm⟩

/-- Witness of C8 at root `test` and key `user1+abc.pdf`. -/
theorem directory_begins_with_root_witness :
    (DefaultPathTransformFunc "test" "user1+abc.pdf" = .ok ("test/user1", "abc.pdf") ∨
      CASPathTransformFunc "test" "user1+abc.pdf" = .ok ("test/user1", "abc.pdf")) ∧
    ∃ tail : String, "test/user1" = "test" ++ "/" ++ tail :=
  ⟨Or.inl (by decide), directory_begins_with_root "test" "user1+abc.pdf" "test/user1"
    "abc.pdf" (Or.inl (by decide))⟩

/-- C9: `CleanPath` returns true exactly when the path is the storage root
followed by exactly 5 segments, each of exactly 8 hexadecimal characters, and
false otherwise; with root `test` it accepts the two digest paths of the test
and rejects `some/invalid/path`. -/
theorem CleanPath_shape (root path : String) :
    (CleanPath root path = true ↔
      ∃ s0 s1 s2 s3 s4 : String,
        path = root ++ "/" ++ s0 ++ "/" ++ s1 ++ "/" ++ s2 ++ "/" ++ s3 ++ "/" ++ s4 ∧
        ∀ s ∈ [s0, s1, s2, s3, s4],
          s.data.length = 8 ∧ ∀ c ∈ s.data, isHexChar c = true) ∧
    CleanPath "test" "test/b3daa77b/4c04a955/1b8781d0/3191fe09/8f325e67" = true ∧
    CleanPath "test" "test/a1881c06/eec96db9/901c7bbf/e41c42a3/f08e9cb4" = true ∧
    CleanPath "test" "some/invalid/path" = false := by
  refine ⟨⟨?_, ?_⟩, by decide, by decide, by decide⟩
  · intro h
    unfold CleanPath at h
    cases ht : trimLead (root.data ++ ['/']) path.data with
    | none => simp [ht] at h
    | some rel =>
      rw [ht] at h
      have hpath := (trimLead_eq_some _ _ _).1 ht
      have hj := splitLoop_intercalate '/' rel []
      simp only [Bool.and_eq_true, beq_iff_eq, List.all_eq_true] at h
      obtain ⟨hlen, hall⟩ := h
      match hs : splitLoop '/' rel [], hlen with
      | [a, b, c, d, e], _ =>
        rw [hs] at hj hall
        refine ⟨⟨a⟩, ⟨b⟩, ⟨c⟩, ⟨d⟩, ⟨e⟩, ?_, ?_⟩
        · have hrel : rel = a ++ '/' :: (b ++ '/' :: (c ++ '/' :: (d ++ '/' :: e))) := by
            simpa [List.intercalate] using hj.symm
          apply String.ext
          simp [String.data_append, hpath, hrel]
        · intro s hsm
          simp only [List.mem_cons, List.mem_singleton, List.not_mem_nil, or_false] at hsm
          rcases hsm with rfl | rfl | rfl | rfl | rfl <;>
            exact ⟨(hall _ (by simp)).1, (hall _ (by simp)).2⟩
  · rintro ⟨s0, s1, s2, s3, s4, hp, hs⟩
    have h0 := hs s0 (by simp)
    have h1 := hs s1 (by simp)
    have h2 := hs s2 (by simp)
    have h3 := hs s3 (by simp)
    have h4 := hs s4 (by simp)
    have ht : trimLead (root.data ++ ['/']) path.data =
        some (s0.data ++ '/' :: (s1.data ++ '/' :: (s2.data ++ '/' :: (s3.data ++ '/' :: s4.data)))) := by
      rw [trimLead_eq_some, hp]
      simp [String.data_append]
    unfold CleanPath
    rw [ht]
    simp only [splitLoop_five _ _ _ _ _ (slash_not_hex _ h0.2) (slash_not_hex _ h1.2)
      (slash_not_hex _ h2.2) (slash_not_hex _ h3.2) (slash_not_hex _ h4.2)]
    simp [h0.1, h1.1, h2.1, h3.1, h4.1]
    exact ⟨h0.2, h1.2, h2.2, h3.2, h4.2⟩

/-- C11: for every storage root and every key that holds a `+`, the file name
returned by `CASPathTransformFunc` is 32 lowercase hexadecimal characters
followed by a suffix that is empty or a dot followed by characters that are
neither `/` nor `.`; hence the name holds no `/` and is neither `.` nor `..`. -/
theorem CAS_name_stays_in_directory (r key : String) (h : '+' ∈ key.data) :
    ∃ dir digest suffix : String,
      CASPathTransformFunc r key = .ok (dir, digest ++ suffix) ∧
      digest.data.length = 32 ∧
      (∀ c ∈ digest.data, c ∈ "0123456789abcdef".data) ∧
      (suffix = "" ∨
        ∃ t : String, suffix = "." ++ t ∧ '/' ∉ t.data ∧ '.' ∉ t.data) ∧
      '/' ∉ (digest ++ suffix).data ∧
      digest ++ suffix ≠ "." ∧ digest ++ suffix ≠ ".." := by
  obtain ⟨u, s, rest, hsp⟩ := Split_of_mem key h
  have hlen : (hexEncode (md5Sum (toBytes (Base s)))).length = 32 := by
    rw [hexEncode_length, md5Sum_length]
  have hmem := hexEncode_mem (md5Sum (toBytes (Base s)))
  have hshape := Ext_shape s
  have hslash : '/' ∉ (String.mk (hexEncode (md5Sum (toBytes (Base s)))) ++ Ext s).data := by
    simp only [String.data_append, List.mem_append, not_or]
    refine ⟨fun hc => absurd (hmem _ hc) (by decide), ?_⟩
    rcases hshape with he | ⟨t, he, hs, _⟩
    · simp [he]
    · rw [he]
      simp only [String.data_append, List.mem_append, not_or]
      exact ⟨by decide, hs⟩
  have hlong : 32 ≤ (String.mk (hexEncode (md5Sum (toBytes (Base s)))) ++ Ext s).data.length := by
    simp only [String.data_append, List.length_append, hlen]
    omega
  refine ⟨_, String.mk (hexEncode (md5Sum (toBytes (Base s)))), Ext s,
    CAS_of_split r key u s rest hsp, hlen, hmem, hshape, hslash, ?_, ?_⟩
  · intro e
    rw [e] at hlong
    exact absurd hlong (by decide)
  · intro e
    rw [e] at hlong
    exact absurd hlong (by decide)

/-- Witness of C11 at root `test` and key `user1+../..`, a file-name part made
of `.`, `..` and `/` only. -/
theorem CAS_name_stays_in_directory_witness :
    '+' ∈ "user1+../..".data ∧
    ∃ dir digest suffix : String,
      CASPathTransformFunc "test" "user1+../.." = .ok (dir, digest ++ suffix) ∧
      digest.data.length = 32 ∧
      (∀ c ∈ digest.data, c ∈ "0123456789abcdef".data) ∧
      (suffix = "" ∨
        ∃ t : String, suffix = "." ++ t ∧ '/' ∉ t.data ∧ '.' ∉ t.data) ∧
      '/' ∉ (digest ++ suffix).data ∧
      digest ++ suffix ≠ "." ∧ digest ++ suffix ≠ ".." :=
  ⟨by decide, CAS_name_stays_in_directory "test" "user1+../.." (by decide)⟩

end Storage
